import Mathlib

/-!
Verification of the hunt-rs search engine core (src/search.rs, src/structs.rs,
src/threadpool.rs) against its natural-language specification.

Shallow embedding conventions:
- OS strings / file names are modelled as `List Char` (`Name`); folding to
  lowercase is ASCII folding, exactly as `str::to_ascii_lowercase`.
- Paths are modelled as lists of components (`FsPath`), compared with the
  lexicographic order on component lists, mirroring `PathBuf`'s `Ord`, which
  compares paths component-wise.
- A directory entry (`std::fs::DirEntry`) is modelled by the containing
  directory's path, the entry's base name, and the outcome of the
  `entry.file_type()` probe (`none` models `Err(_)`, `some b` models
  `Ok(t)` with `t.is_dir() = b`).
- The substring finder `search.finder` is constructed outside the sources
  that are available here; its semantics is modelled from the spec
  (see `containsQuery`).
-/

namespace Hunt

/-- A file or directory base name: the bytes of one path component. -/
abbrev Name := List Char

/-- A filesystem path, as its list of components.  `PathBuf` equality and
order in Rust are component-wise, which the lexicographic order on
`List Name` mirrors. -/
abbrev FsPath := List Name

/-- Rust `enum FileType` from src/structs.rs. -/
inductive FileType where
  | Dir
  | File
  | All
deriving DecidableEq, Repr

/-- Rust `enum Output` from src/structs.rs. -/
inductive Output where
  | Normal
  | Simple
  | SuperSimple
deriving DecidableEq, Repr

/-- Rust `struct Search` from src/structs.rs (the resolved configuration).
The `finder` field of the running configuration is a substring searcher
for `name`; it carries no independent data, so it is not a field here
(see `containsQuery`). -/
structure Search where
  first : Bool
  exact : Bool
  canonicalize : Bool
  case_sensitive : Bool
  limit : Bool
  verbose : Bool
  hidden : Bool
  output : Output
  name : Name
  starts : Name
  ends : Name
  ftype : FileType
  current_dir : FsPath
  explicit_ignore : List FsPath
  hardcoded_ignore : List Name
  dirs : List FsPath
deriving DecidableEq, Repr

/-- A directory entry as produced by `std::fs::read_dir`: the directory it
was read from, its base name (never empty, never containing a separator),
and the result of the `entry.file_type()` probe. -/
structure DirEntry where
  parent : FsPath
  name : Name
  ftypeProbe : Option Bool
deriving DecidableEq, Repr

/-- Rust `entry.path()`: the containing directory's path joined with the base
name (`DirEntry::path` is documented as `self.dir.join(self.file_name())`). -/
def DirEntry.path (e : DirEntry) : FsPath :=
  e.parent ++ [e.name]

/-- Rust `enum SearchResult` from src/searchresult.rs.  The payload in the code
is a rendered string (the raw path, or a highlighted form for `Contains`
in `Output::Normal`); rendering/highlighting is presentation-layer and out
of the core's scope, so the payload is modelled as the matched path. -/
inductive SearchResult where
  | Contains (p : FsPath)
  | Exact (p : FsPath)
deriving DecidableEq, Repr

/-- ASCII lowercase folding of one character, as `u8::to_ascii_lowercase`. -/
def foldChar (c : Char) : Char :=
  if 'A' ≤ c ∧ c ≤ 'Z' then Char.ofNat (c.toNat + 32) else c

/-- Rust `str::to_ascii_lowercase` on a name. -/
def foldName (n : Name) : Name :=
  n.map foldChar

/-- Rust `slice::binary_search` (recursive rendering of the standard
library's loop): search for `x` in `l` between indexes `left` (included)
and `right` (excluded); `mid = left + size / 2`.  Returns `.ok i` with
`l[i] = x` when found, `.error j` with the insertion point otherwise.
The recursion is driven by a fuel argument so that the function computes
by reduction; every call supplies `fuel ≥ right - left`, which the loop
never exhausts (each iteration strictly shrinks `right - left`). -/
def binarySearchGo {α : Type} [LinearOrder α] (l : List α) (x : α) :
    Nat → Nat → Nat → Except Nat Nat
  | 0, left, _ => .error left
  | fuel + 1, left, right =>
    if left < right then
      match l.get? (left + (right - left) / 2) with
      | none => .error left
      | some a =>
        if a < x then binarySearchGo l x fuel (left + (right - left) / 2 + 1) right
        else if x < a then binarySearchGo l x fuel left (left + (right - left) / 2)
        else .ok (left + (right - left) / 2)
    else .error left

/-- Rust `slice::binary_search(&x)` over the whole slice. -/
def binarySearch {α : Type} [LinearOrder α] (l : List α) (x : α) : Except Nat Nat :=
  binarySearchGo l x l.length 0 l.length

/-- src/search.rs, is_result: `search.explicit_ignore.binary_search(&path).is_ok()`. -/
def ignoredBy (s : Search) (e : DirEntry) : Bool :=
  (binarySearch s.explicit_ignore e.path).isOk

/-- src/search.rs, `is_hidden` (unix): the base name's first byte is `.`. -/
def isHiddenName (n : Name) : Bool :=
  n.head? == some '.'

/-- src/search.rs, is_result: `matches!(entry.file_type(), Ok(ftype) if ftype.is_dir())`;
a failed probe yields `false`. -/
def isDirOf (e : DirEntry) : Bool :=
  e.ftypeProbe == some true

/-- src/search.rs, is_result: the type-filter test on the entry. -/
def ftypeOk (s : Search) (e : DirEntry) : Bool :=
  match s.ftype with
  | .All => true
  | .Dir => isDirOf e
  | .File => !isDirOf e

/-- src/search.rs, is_result: `sname`, the folded base name — the name
itself when case-sensitive, its ASCII-lowercase folding otherwise. -/
def snameOf (s : Search) (e : DirEntry) : Name :=
  if s.case_sensitive then e.name else foldName e.name

/-- src/search.rs, is_result: `search.starts.is_empty() || sname.starts_with(&search.starts)`. -/
def startsOk (s : Search) (e : DirEntry) : Bool :=
  s.starts.isEmpty || s.starts.isPrefixOf (snameOf s e)

/-- src/search.rs, is_result: `search.ends.is_empty() || sname.ends_with(&search.ends)`. -/
def endsOk (s : Search) (e : DirEntry) : Bool :=
  s.ends.isEmpty || s.ends.isSuffixOf (snameOf s e)

/-- Modelled from the spec: `search.finder` is a substring searcher for the
query `search.name`, whose construction is not among the available sources;
per the spec, step 5 of the match predicate searches "for the query as a
substring of the folded name (empty query matches everything)", which is
exactly the semantics of `memmem::Finder::find(..).is_some()`. -/
def containsQuery (s : Search) (e : DirEntry) : Bool :=
  decide (s.name <:+: snameOf s e)

/-- src/search.rs, is_result, body after the ignore and hidden guards:
type/starts/ends filters, then the finder probe giving
`(equals, contains)`, then classification into `Exact` / `Contains` /
no match, together with the recursion path `is_dir.then_some(path)`. -/
def classifyEntry (s : Search) (e : DirEntry) : Option SearchResult × Option FsPath :=
  let isDir := isDirOf e
  let recur : Option FsPath := if isDir then some e.path else none
  if ftypeOk s e && startsOk s e && endsOk s e then
    let contains := containsQuery s e
    let equals := contains && ((snameOf s e).length == s.name.length)
    if equals then
      (some (.Exact e.path), recur)
    else if !s.exact && contains then
      (some (.Contains e.path), recur)
    else
      (none, recur)
  else
    (none, recur)

/-- src/search.rs, `is_result`: `None` models the early `return None`
(entry skipped: no match, no recursion); `some (m, r)` models
`Some((m, r))` with `m` the optional match and `r` the optional
recursion path.  On unix `file_name` always returns `Some` for an entry
path (the bytes after the last separator), so the invalid-file-name
branch of the source is unreachable and does not appear. -/
def is_result (s : Search) (e : DirEntry) : Option (Option SearchResult × Option FsPath) :=
  if ignoredBy s e then
    none
  else if !s.hidden && isHiddenName e.name then
    none
  else
    some (classifyEntry s e)

/-- The optional match of an `is_result` outcome (skips yield none). -/
def matchOf (r : Option (Option SearchResult × Option FsPath)) : Option SearchResult :=
  match r with
  | some (m, _) => m
  | none => none

/-- The optional recursion path of an `is_result` outcome (skips yield none). -/
def recurOf (r : Option (Option SearchResult × Option FsPath)) : Option FsPath :=
  match r with
  | some (_, r) => r
  | none => none

/-- Whether an `is_result` outcome is an `Exact` classification. -/
def isExactOutcome (r : Option (Option SearchResult × Option FsPath)) : Bool :=
  match matchOf r with
  | some (.Exact _) => true
  | _ => false

/-- Whether an `is_result` outcome is a `Contains` classification. -/
def isContainsOutcome (r : Option (Option SearchResult × Option FsPath)) : Bool :=
  match matchOf r with
  | some (.Contains _) => true
  | _ => false

/-- The conjunction of the ignore, hidden, type and starts/ends guards of
`is_result`, written with the very same guard functions the embedding of
`is_result` uses. -/
def passesFilters (s : Search) (e : DirEntry) : Bool :=
  !ignoredBy s e && !(!s.hidden && isHiddenName e.name) &&
    ftypeOk s e && startsOk s e && endsOk s e

/-- The matches produced by running the predicate over a list of entries
(the entries enumerated during a walk, in some order). -/
def collectMatches (s : Search) (es : List DirEntry) : List SearchResult :=
  es.filterMap fun e => matchOf (is_result s e)

/-- The Exact partition of a list of results. -/
def exactPartition (rs : List SearchResult) : List FsPath :=
  rs.filterMap fun r => match r with | .Exact p => some p | _ => none

/-- The Contains partition of a list of results. -/
def containsPartition (rs : List SearchResult) : List FsPath :=
  rs.filterMap fun r => match r with | .Contains p => some p | _ => none

/-- Rendering of a path for printing (`Path::to_string_lossy`): components
joined by the separator. -/
def pathString : FsPath → Name
  | [] => []
  | [c] => c
  | c :: rest => c ++ '/' :: pathString rest

/-- Rust `Display for SearchResult` (src/searchresult.rs): both variants print
their payload string. -/
def renderResult : SearchResult → Name
  | .Exact p => pathString p
  | .Contains p => pathString p

/-- The line printed by `receive_paths` when first-match mode finds nothing. -/
def fileNotFound : Name := "File not found".toList

/-- The observable end of `receive_paths`: either the process exited
(`std::process::exit`) after printing the given stdout lines, or the
function returned the `Buffers` pair (exact, contains). -/
inductive RecvOutcome where
  | exited (stdoutLines : List Name) (code : Nat)
  | returned (exact : List FsPath) (contains : List FsPath)
deriving DecidableEq, Repr

/-- src/search.rs, `receive_paths`: the channel is modelled by the list of
results it delivers before every sender is dropped (`recv` returning `Err`
corresponds to the end of the list).  In first-match mode the first
received result is printed and the process exits with code 0; when the
stream is empty, "File not found" is printed only in `Output::Normal`
and the process exits with code 0.  In `SuperSimple` mode each result is
printed as it arrives and the process exits with 0; otherwise the results
are partitioned into the `(exact, contains)` buffers and returned. -/
def receive_paths (s : Search) (stream : List SearchResult) : RecvOutcome :=
  if s.first then
    match stream with
    | [] => .exited (if s.output == Output.Normal then [fileNotFound] else []) 0
    | r :: _ => .exited [renderResult r] 0
  else if s.output == Output.SuperSimple then
    .exited (stream.map renderResult) 0
  else
    .returned (exactPartition stream) (containsPartition stream)

/-- The observable end of `Search::search` root handling: a fatal exit
with the given stderr diagnostics, printed stdout lines, and exit code —
or the walk being launched on the validated roots. -/
inductive SearchOutcome where
  | fatal (stderrLines : List Name) (stdoutLines : List Name) (code : Nat)
  | launched (roots : List FsPath)
deriving DecidableEq, Repr

/-- The diagnostic `eprintln!("Error: The {:?} directory does not exist", path)`. -/
def rootError (p : FsPath) : Name :=
  "Error: The directory does not exist: ".toList ++ pathString p

/-- src/search.rs, `Search::search` (limit branch): each user-specified
directory is checked with `path.exists()` in order; the first failure
prints one diagnostic and exits the process with code 1. -/
def validateDirs (fsExists : FsPath → Bool) : List FsPath → Except FsPath (List FsPath)
  | [] => .ok []
  | d :: rest =>
    if fsExists d then (validateDirs fsExists rest).map (d :: ·)
    else .error d

/-- src/search.rs, `Search::search` (limit branch): the validation of the
user-specified roots against the filesystem existence probe.  The spawned
per-root searches only feed the result channel; nothing is printed to
stdout before `receive_paths` runs, and `receive_paths` runs only after
every root has been validated, so a failed root yields a fatal outcome
with exactly one stderr diagnostic, no stdout, and exit code 1. -/
def searchRootsRun (fsExists : FsPath → Bool) (dirs : List FsPath) : SearchOutcome :=
  match validateDirs fsExists dirs with
  | .error d => .fatal [rootError d] [] 1
  | .ok ds => .launched ds

/-- src/structs.rs, `Cli::run`:
`for p in ignore_dirs.iter_mut() { if let Ok(c) = p.canonicalize() { *p = c } }` —
each user-supplied ignore entry is replaced by its canonical form when
canonicalization succeeds and kept as given otherwise; the list is passed
on to `Search::new` in this order, and is never sorted.  The
canonicalizer is modelled as a possibly-failing map to canonical paths. -/
def processIgnoreDirs (canon : FsPath → Option FsPath) (l : List FsPath) : List FsPath :=
  l.map fun p => (canon p).getD p

/-- src/structs.rs, `Search::new`: the 19 hard-coded system directories
stored in the `hardcoded_ignore` field (listed here in source order; the
source additionally sorts them with a const function, which is irrelevant
to every claim about the field since nothing ever reads it). -/
def hardcodedIgnore : List Name :=
  ["/proc".toList, "/root".toList, "/boot".toList, "/dev".toList,
   "/lib".toList, "/lib64".toList, "/lost+found".toList, "/run".toList,
   "/sbin".toList, "/sys".toList, "/tmp".toList, "/var/tmp".toList,
   "/var/lib".toList, "/var/log".toList, "/var/db".toList,
   "/var/cache".toList, "/etc/pacman.d".toList, "/etc/sudoers.d".toList,
   "/etc/audit".toList]

/-- A message on the worker pool's shared channel
(src/threadpool.rs: `Option<Box<Path>>`): a directory to expand, or a
stop signal (`None`).  Directories are identified by numeric labels. -/
inductive Msg where
  | work (d : Nat)
  | stop
deriving DecidableEq, Repr

/-- The micro-state of one worker inside `Worker::work`
(src/threadpool.rs).  Each constructor is a point between two of the
worker's own atomic/channel operations:
`waiting` — blocked in `r_work.recv()`;
`received d` — `recv` returned `Ok(Some(d))`, `start_work` not yet run;
`expanding d` — after `working.fetch_add(1)`, before the sends of
`search_dir`; `expanded` — children sent, before `working.fetch_sub(1)`;
`checking` — before the `working.load(Acquire)` read of `should_stop`;
`loaded w` — read the counter value `w`, before the `r_work.is_empty()`
read; `stopped` — exited after receiving a stop signal;
`broadcast` — exited after itself broadcasting the stop signals. -/
inductive WPhase where
  | waiting
  | received (d : Nat)
  | expanding (d : Nat)
  | expanded
  | checking
  | loaded (w : Nat)
  | stopped
  | broadcast
deriving DecidableEq, Repr

/-- The shared state of the pool: the FIFO channel contents, the
`working` counter, and each worker's micro-state. -/
structure PoolState where
  channel : List Msg
  working : Nat
  workers : List WPhase
deriving DecidableEq, Repr

/-- One micro-step of worker `i`, following `Worker::work`,
`Worker::start_work`, `Worker::end_work` and `Worker::search_dir`
(src/threadpool.rs).  A worker blocked on an empty channel, or already
exited, does nothing.  `children d` lists the subdirectories discovered
when expanding `d` (matches are irrelevant to the termination protocol
and are not tracked); the sends of one expansion are taken in one step,
which is exact whenever a directory has at most one child. -/
def wstep (children : Nat → List Nat) (nthreads : Nat)
    (st : PoolState) (i : Nat) : PoolState :=
  match st.workers.get? i with
  | none => st
  | some ph =>
    match ph with
    | .waiting =>
      match st.channel with
      | [] => st
      | .stop :: rest =>
        { st with channel := rest, workers := st.workers.set i .stopped }
      | .work d :: rest =>
        { st with channel := rest, workers := st.workers.set i (.received d) }
    | .received d =>
      { st with working := st.working + 1,
                workers := st.workers.set i (.expanding d) }
    | .expanding d =>
      { st with channel := st.channel ++ (children d).map Msg.work,
                workers := st.workers.set i .expanded }
    | .expanded =>
      { st with working := st.working - 1,
                workers := st.workers.set i .checking }
    | .checking =>
      { st with workers := st.workers.set i (.loaded st.working) }
    | .loaded w =>
      if w == 0 && st.channel.isEmpty then
        { st with channel := st.channel ++ List.replicate (nthreads - 1) Msg.stop,
                  workers := st.workers.set i .broadcast }
      else
        { st with workers := st.workers.set i .waiting }
    | .stopped => st
    | .broadcast => st

/-- Run the pool on a schedule (a list of worker indexes, each taking its
next micro-step).  The initial state models `Pool::new` plus the single
`Pool::send` of the root directory: the channel holds the root work item,
the counter is zero, and every worker is blocked in `recv`. -/
def runPool (children : Nat → List Nat) (nthreads : Nat) (root : Nat)
    (sched : List Nat) : PoolState :=
  sched.foldl (wstep children nthreads)
    { channel := [Msg.work root], working := 0,
      workers := List.replicate nthreads WPhase.waiting }

/-- The three-directory chain used to exhibit the termination race:
directory 0 contains directory 1, which contains directory 2. -/
def chainTree : Nat → List Nat :=
  fun n => if n == 0 then [1] else if n == 1 then [2] else []

/-- The interleaving exhibiting the race: worker 0 expands the root and
publishes directory 1; worker 1 dequeues it but is preempted before
`start_work`; worker 0 then reads `working == 0` and an empty channel and
broadcasts the stop signals; worker 1 expands directory 1, publishes
directory 2, fails its own stop check (channel non-empty) and then
consumes the stop signal, exiting with directory 2 still queued. -/
def raceSched : List Nat := [0, 0, 0, 0, 1, 0, 0, 1, 1, 1, 1, 1, 1]

/-- A baseline resolved configuration for concrete instances: a
case-insensitive, contains-mode search for "target" with no prefix,
suffix or type filter and an empty explicit ignore list. -/
def demoSearch : Search :=
  { first := false, exact := false, canonicalize := false,
    case_sensitive := false, limit := true, verbose := false,
    hidden := false, output := Output.Normal, name := "target".toList,
    starts := [], ends := [], ftype := FileType.All, current_dir := [],
    explicit_ignore := [], hardcoded_ignore := hardcodedIgnore,
    dirs := [["a".toList]] }

end Hunt

namespace Hunt

theorem matchOf_some (x : Option SearchResult × Option FsPath) :
    matchOf (some x) = x.1 := rfl

theorem recurOf_some (x : Option SearchResult × Option FsPath) :
    recurOf (some x) = x.2 := rfl

theorem matchOf_characterization (s : Search) (e : DirEntry) :
    matchOf (is_result s e) =
      if passesFilters s e then
        (if containsQuery s e && ((snameOf s e).length == s.name.length) then
          some (SearchResult.Exact e.path)
        else if !s.exact && containsQuery s e then
          some (SearchResult.Contains e.path)
        else
          none)
      else none := by
  by_cases h1 : ignoredBy s e
  · simp [is_result, passesFilters, matchOf, h1]
  · by_cases h2 : (!s.hidden && isHiddenName e.name) = true
    · simp [is_result, passesFilters, matchOf, h1, h2]
    · by_cases h3 : (ftypeOk s e && startsOk s e && endsOk s e) = true
      · simp [is_result, passesFilters, classifyEntry, matchOf_some, h1, h2, h3,
          apply_ite Prod.fst]
      · have h3' : (ftypeOk s e && startsOk s e && endsOk s e) = false := by
          simpa using h3
        simp [is_result, passesFilters, classifyEntry, matchOf_some, h1, h2, h3',
          apply_ite Prod.fst]

theorem recurOf_characterization (s : Search) (e : DirEntry) :
    recurOf (is_result s e) =
      if (!ignoredBy s e && !(!s.hidden && isHiddenName e.name)) && isDirOf e then
        some e.path
      else none := by
  by_cases h1 : ignoredBy s e
  · simp [is_result, recurOf, h1]
  · by_cases h2 : (!s.hidden && isHiddenName e.name) = true
    · simp [is_result, recurOf, h1, h2]
    · simp [is_result, classifyEntry, recurOf_some, h1, h2, apply_ite Prod.snd]

theorem contains_len_iff (q t : Name) :
    ((decide (q <:+: t) && (t.length == q.length)) = true) ↔ t = q := by
  simp only [Bool.and_eq_true, decide_eq_true_eq, beq_iff_eq]
  constructor
  · rintro ⟨⟨u, v, huv⟩, hlen⟩
    have hl := congrArg List.length huv
    simp only [List.length_append] at hl
    have hu : u.length = 0 := by omega
    have hv : v.length = 0 := by omega
    rw [List.length_eq_zero] at hu hv
    subst hu; subst hv
    simpa using huv.symm
  · rintro rfl
    exact ⟨List.infix_refl _, rfl⟩

example : foldName "TaRgEt".toList = "target".toList := by decide

example :
    is_result
      { first := false, exact := false, canonicalize := false,
        case_sensitive := false, limit := true, verbose := false,
        hidden := false, output := .Normal, name := "target".toList,
        starts := [], ends := [], ftype := .All, current_dir := [],
        explicit_ignore := [], hardcoded_ignore := [], dirs := [] }
      { parent := ["a".toList], name := "target.txt".toList, ftypeProbe := some false }
    = some (some (.Contains ["a".toList, "target.txt".toList]), none) := by decide

theorem sorted_le_of_get {α : Type} [LinearOrder α] {l : List α}
    (hs : l.Sorted (· ≤ ·)) {i j : Nat} (hij : i ≤ j) {a b : α}
    (ha : l.get? i = some a) (hb : l.get? j = some b) : a ≤ b := by
  rcases Nat.lt_or_ge i j with h | h
  · obtain ⟨hi, ha'⟩ := List.get?_eq_some.mp ha
    obtain ⟨hj, hb'⟩ := List.get?_eq_some.mp hb
    have hrel := List.pairwise_iff_get.mp hs ⟨i, hi⟩ ⟨j, hj⟩ (by simpa using h)
    rw [ha', hb'] at hrel
    exact hrel
  · have hij' : i = j := le_antisymm hij h
    subst hij'
    rw [ha] at hb
    exact le_of_eq (Option.some.inj hb)

theorem binarySearchGo_isOk_of_mem {α : Type} [LinearOrder α] (l : List α) (x : α)
    (hs : l.Sorted (· ≤ ·)) :
    ∀ (fuel left right : Nat), right ≤ l.length → right - left ≤ fuel →
      (∃ i, left ≤ i ∧ i < right ∧ l.get? i = some x) →
      (binarySearchGo l x fuel left right).isOk = true := by
  intro fuel
  induction fuel with
  | zero =>
    rintro left right _ hf ⟨i, h1, h2, _⟩
    omega
  | succ fuel ih =>
    rintro left right hr hf ⟨i, h1, h2, hget⟩
    have hlr : left < right := by omega
    have hmidlt : left + (right - left) / 2 < right := by omega
    have hmidlen : left + (right - left) / 2 < l.length := by omega
    obtain ⟨a, hga⟩ : ∃ a, l.get? (left + (right - left) / 2) = some a :=
      ⟨_, List.get?_eq_get hmidlen⟩
    simp only [binarySearchGo, hga, if_pos hlr]
    by_cases hax : a < x
    · rw [if_pos hax]
      apply ih (left + (right - left) / 2 + 1) right hr (by omega)
      refine ⟨i, ?_, h2, hget⟩
      by_contra hcon
      have hile : i ≤ left + (right - left) / 2 := by omega
      have hle : x ≤ a := sorted_le_of_get hs hile hget hga
      exact absurd hax (not_lt.mpr hle)
    · by_cases hxa : x < a
      · rw [if_neg hax, if_pos hxa]
        apply ih left (left + (right - left) / 2) (by omega) (by omega)
        refine ⟨i, h1, ?_, hget⟩
        by_contra hcon
        have hmle : left + (right - left) / 2 ≤ i := by omega
        have hle : a ≤ x := sorted_le_of_get hs hmle hga hget
        exact absurd hxa (not_lt.mpr hle)
      · rw [if_neg hax, if_neg hxa]
        rfl

theorem binarySearchGo_mem_of_isOk {α : Type} [LinearOrder α] (l : List α) (x : α) :
    ∀ (fuel left right : Nat),
      (binarySearchGo l x fuel left right).isOk = true → x ∈ l := by
  intro fuel
  induction fuel with
  | zero =>
    intro left right h
    simp [binarySearchGo, Except.isOk, Except.toBool] at h
  | succ fuel ih =>
    intro left right h
    simp only [binarySearchGo] at h
    by_cases hlr : left < right
    · rw [if_pos hlr] at h
      cases hga : l.get? (left + (right - left) / 2) with
      | none =>
        simp only [hga] at h
        simp [Except.isOk, Except.toBool] at h
      | some a =>
        simp only [hga] at h
        by_cases hax : a < x
        · rw [if_pos hax] at h
          exact ih _ _ h
        · by_cases hxa : x < a
          · rw [if_neg hax, if_pos hxa] at h
            exact ih _ _ h
          · have hae : a = x := le_antisymm (not_lt.mp hxa) (not_lt.mp hax)
            exact hae ▸ List.get?_mem hga
    · rw [if_neg hlr] at h
      simp [Except.isOk, Except.toBool] at h

theorem binarySearch_isOk_iff {α : Type} [LinearOrder α] (l : List α) (x : α)
    (hs : l.Sorted (· ≤ ·)) :
    (binarySearch l x).isOk = true ↔ x ∈ l := by
  constructor
  · exact binarySearchGo_mem_of_isOk l x l.length 0 l.length
  · intro hmem
    obtain ⟨n, hn⟩ := List.mem_iff_get?.mp hmem
    have hnlen : n < l.length := (List.get?_eq_some.mp hn).1
    exact binarySearchGo_isOk_of_mem l x hs l.length 0 l.length le_rfl (by omega)
      ⟨n, Nat.zero_le n, hnlen, hn⟩

/-- C7: when hidden-traversal is disabled (`search.hidden = false`), every
entry whose base name starts with a dot yields no match and no recursion
path from the match predicate; when hidden-traversal is enabled the hidden
test imposes no restriction — the predicate is exactly the ignore test
followed by the rest of the classification pipeline. -/
theorem hidden_skip_rules (s : Search) (e : DirEntry) :
    (s.hidden = false → e.name.head? = some '.' → is_result s e = none)
  ∧ (s.hidden = true →
      is_result s e = if ignoredBy s e then none else some (classifyEntry s e)) := by
  constructor
  · intro hh hd
    have hn : isHiddenName e.name = true := by simp [isHiddenName, hd]
    by_cases h1 : ignoredBy s e <;> simp [is_result, h1, hh, hn]
  · intro hh
    by_cases h1 : ignoredBy s e <;> simp [is_result, h1, hh]

/-- Witness for hidden_skip_rules: with hidden-traversal disabled the
entry ".git" (a directory) is skipped outright; with it enabled the
predicate reduces to the ignore-free classification. -/
theorem hidden_skip_rules_case :
    is_result { demoSearch with hidden := false }
      { parent := ["a".toList], name := ".git".toList, ftypeProbe := some true } = none
  ∧ is_result { demoSearch with hidden := true }
      { parent := ["a".toList], name := ".git".toList, ftypeProbe := some true }
      = if ignoredBy { demoSearch with hidden := true }
            { parent := ["a".toList], name := ".git".toList, ftypeProbe := some true }
        then none
        else some (classifyEntry { demoSearch with hidden := true }
            { parent := ["a".toList], name := ".git".toList, ftypeProbe := some true }) :=
  ⟨(hidden_skip_rules _ _).1 rfl (by decide), (hidden_skip_rules _ _).2 rfl⟩

/-- C8: the prefix and suffix filters are evaluated against the folded
base name: an entry can be classified as a match only if the folded name
starts with the configured prefix and ends with the configured suffix,
an empty prefix or suffix imposing no restriction. -/
theorem starts_ends_filter_required (s : Search) (e : DirEntry)
    (h : matchOf (is_result s e) ≠ none) :
    (s.starts.isEmpty || s.starts.isPrefixOf (snameOf s e)) = true
  ∧ (s.ends.isEmpty || s.ends.isSuffixOf (snameOf s e)) = true := by
  rw [matchOf_characterization] at h
  by_cases hp : passesFilters s e = true
  · have hp' := hp
    simp only [passesFilters, Bool.and_eq_true] at hp'
    obtain ⟨⟨⟨⟨hig, hhid⟩, hft⟩, hst⟩, hen⟩ := hp'
    exact ⟨hst, hen⟩
  · simp [hp] at h

/-- Witness for starts_ends_filter_required: the match "Target.txt" for
query "target" with prefix "ta" and suffix ".txt" satisfies both filter
equations on the folded name. -/
theorem starts_ends_filter_required_case :
    (({ demoSearch with starts := "ta".toList, ends := ".txt".toList } : Search).starts.isEmpty
      || ({ demoSearch with starts := "ta".toList, ends := ".txt".toList } : Search).starts.isPrefixOf
          (snameOf { demoSearch with starts := "ta".toList, ends := ".txt".toList }
            { parent := ["a".toList], name := "Target.txt".toList, ftypeProbe := some false })) = true
  ∧ (({ demoSearch with starts := "ta".toList, ends := ".txt".toList } : Search).ends.isEmpty
      || ({ demoSearch with starts := "ta".toList, ends := ".txt".toList } : Search).ends.isSuffixOf
          (snameOf { demoSearch with starts := "ta".toList, ends := ".txt".toList }
            { parent := ["a".toList], name := "Target.txt".toList, ftypeProbe := some false })) = true :=
  starts_ends_filter_required
    { demoSearch with starts := "ta".toList, ends := ".txt".toList }
    { parent := ["a".toList], name := "Target.txt".toList, ftypeProbe := some false }
    (by decide)

/-- C10: the hard-coded ignore list stored in the configuration has no
effect on the match predicate: two configurations differing only in the
`hardcoded_ignore` field produce the same predicate outcome on every
entry, so entries under those system directories are matched and
traversed like any others. -/
theorem hardcoded_ignore_no_effect (s : Search) (e : DirEntry)
    (l1 l2 : List Name) :
    is_result { s with hardcoded_ignore := l1 } e
      = is_result { s with hardcoded_ignore := l2 } e := rfl

/-- C4 counterexample: an entry whose file-type probe failed is still
classified as a match under the `File` type filter (the failed probe makes
`is_dir` false, and the `File` filter is `!is_dir`), contradicting the
claim that such an entry lands in neither partition under every
configured type filter. -/
theorem probe_failure_still_matches :
    (({ demoSearch with ftype := FileType.File, name := "b".toList } : Search).ftype
        = FileType.File)
  ∧ ({ parent := ["a".toList], name := "b".toList, ftypeProbe := none } : DirEntry).ftypeProbe
        = none
  ∧ matchOf (is_result { demoSearch with ftype := FileType.File, name := "b".toList }
      { parent := ["a".toList], name := "b".toList, ftypeProbe := none })
        = some (SearchResult.Exact ["a".toList, "b".toList]) := by
  refine ⟨rfl, rfl, ?_⟩
  decide

/-- C4 (amended): an entry whose file-type probe fails is treated as not
being a directory: it is never returned as a recursion path, it is
excluded under the `Dir` type filter, and the failure never aborts the
walk (the predicate still returns a value); under the `File` or `All`
filters the entry remains eligible to match. -/
theorem probe_failure_nonrecursable (s : Search) (e : DirEntry)
    (hp : e.ftypeProbe = none) :
    recurOf (is_result s e) = none
  ∧ (s.ftype = FileType.Dir → matchOf (is_result s e) = none) := by
  have hd : isDirOf e = false := by simp [isDirOf, hp]
  constructor
  · rw [recurOf_characterization]; simp [hd]
  · intro hft
    have hf : ftypeOk s e = false := by simp [ftypeOk, hft, hd]
    rw [matchOf_characterization]
    simp [passesFilters, hf]

/-- Witness for probe_failure_nonrecursable: under the `Dir` filter a
probe-failed entry is neither recursed into nor matched. -/
theorem probe_failure_nonrecursable_case :
    recurOf (is_result { demoSearch with ftype := FileType.Dir }
      { parent := ["a".toList], name := "b".toList, ftypeProbe := none }) = none
  ∧ matchOf (is_result { demoSearch with ftype := FileType.Dir }
      { parent := ["a".toList], name := "b".toList, ftypeProbe := none }) = none :=
  ⟨(probe_failure_nonrecursable _ _ rfl).1,
   (probe_failure_nonrecursable { demoSearch with ftype := FileType.Dir }
      { parent := ["a".toList], name := "b".toList, ftypeProbe := none } rfl).2 rfl⟩

/-- C5 counterexample: in first-match mode with `Simple` output and no
match in scope, the engine exits with code 0 but prints nothing — no
empty-result indication is emitted, contradicting the unconditional
"empty-result indication" part of the claim. -/
theorem first_match_silent_when_empty :
    ({ demoSearch with first := true, output := Output.Simple } : Search).first = true
  ∧ receive_paths { demoSearch with first := true, output := Output.Simple } []
      = RecvOutcome.exited [] 0 := by
  exact ⟨rfl, rfl⟩

/-- C5 (amended): in first-match mode the engine emits at most one path
and always exits with code 0; it prints exactly the first received path
when at least one match exists, and when none exists it prints the
empty-result indication only in `Normal` output mode, exiting silently
otherwise. -/
theorem first_match_emission (s : Search) (stream : List SearchResult)
    (h : s.first = true) :
    ∃ lines, receive_paths s stream = RecvOutcome.exited lines 0
      ∧ lines.length ≤ 1
      ∧ (stream ≠ [] → lines = [renderResult (stream.headD (SearchResult.Exact []))])
      ∧ (stream = [] → s.output = Output.Normal → lines = [fileNotFound])
      ∧ (stream = [] → s.output ≠ Output.Normal → lines = []) := by
  cases stream with
  | nil =>
    refine ⟨if s.output == Output.Normal then [fileNotFound] else [], ?_, ?_, ?_, ?_, ?_⟩
    · simp [receive_paths, h]
    · by_cases ho : (s.output == Output.Normal) = true <;> simp [ho]
    · intro hne; exact absurd rfl hne
    · intro _ ho; simp [ho]
    · intro _ ho
      have : (s.output == Output.Normal) = false := by simpa using ho
      simp [this]
  | cons r rest =>
    refine ⟨[renderResult r], ?_, ?_, ?_, ?_, ?_⟩
    · simp [receive_paths, h]
    · simp
    · intro _; simp
    · intro hc; cases hc
    · intro hc; cases hc

/-- Witness for first_match_emission at the empty stream under the
baseline first-match configuration (Normal output). -/
theorem first_match_emission_case :
    ∃ lines, receive_paths { demoSearch with first := true } []
        = RecvOutcome.exited lines 0
      ∧ lines.length ≤ 1
      ∧ (([] : List SearchResult) ≠ [] →
          lines = [renderResult (([] : List SearchResult).headD (SearchResult.Exact []))])
      ∧ (([] : List SearchResult) = [] →
          ({ demoSearch with first := true } : Search).output = Output.Normal →
            lines = [fileNotFound])
      ∧ (([] : List SearchResult) = [] →
          ({ demoSearch with first := true } : Search).output ≠ Output.Normal →
            lines = []) :=
  first_match_emission { demoSearch with first := true } [] rfl

theorem validateDirs_error_of_missing (fsExists : FsPath → Bool) (dirs : List FsPath)
    (h : ∃ d ∈ dirs, fsExists d = false) :
    ∃ bad ∈ dirs, fsExists bad = false ∧
      validateDirs fsExists dirs = Except.error bad := by
  induction dirs with
  | nil => simp at h
  | cons d rest ih =>
    by_cases hd : fsExists d = true
    · obtain ⟨b, hb, hbf⟩ := h
      rcases List.mem_cons.mp hb with rfl | hbr
      · rw [hd] at hbf; cases hbf
      · obtain ⟨bad, hbad, hbf2, heq⟩ := ih ⟨b, hbr, hbf⟩
        exact ⟨bad, List.mem_cons_of_mem _ hbad, hbf2,
          by simp [validateDirs, hd, heq, Except.map]⟩
    · have hd' : fsExists d = false := by simpa using hd
      exact ⟨d, List.mem_cons_self _ _, hd', by simp [validateDirs, hd']⟩

/-- C6: when some explicitly specified search root does not exist, the
run aborts with a single diagnostic line on standard error and exit code
1, producing no search output; the root is not skipped. -/
theorem missing_root_aborts (fsExists : FsPath → Bool) (dirs : List FsPath)
    (h : ∃ d ∈ dirs, fsExists d = false) :
    ∃ bad ∈ dirs, fsExists bad = false ∧
      searchRootsRun fsExists dirs = SearchOutcome.fatal [rootError bad] [] 1 := by
  obtain ⟨bad, hmem, hf, heq⟩ := validateDirs_error_of_missing fsExists dirs h
  exact ⟨bad, hmem, hf, by simp [searchRootsRun, heq]⟩

/-- Witness for missing_root_aborts: a run whose only root is missing
aborts fatally with the single diagnostic for that root. -/
theorem missing_root_aborts_case :
    ∃ bad ∈ [["missing".toList]], (fun _ : FsPath => false) bad = false ∧
      searchRootsRun (fun _ => false) [["missing".toList]]
        = SearchOutcome.fatal [rootError bad] [] 1 :=
  missing_root_aborts (fun _ => false) [["missing".toList]]
    ⟨["missing".toList], by simp, rfl⟩

/-- C3 counterexample: the claim says a relative ignore entry matches by
base-name equality.  With the relative ignore entry "b" and the entry
"./b" — whose base name equals the ignore entry — the predicate neither
skips the entry (it classifies it as an Exact match) nor withholds the
recursion path: the ignored directory would be entered.  The code only
ever compares full paths. -/
theorem ignore_basename_not_skipped :
    (({ demoSearch with
          explicit_ignore := [["b".toList]], name := "b".toList } : Search).explicit_ignore
        = [["b".toList]])
  ∧ ({ parent := [".".toList], name := "b".toList,
        ftypeProbe := some true } : DirEntry).name = "b".toList
  ∧ is_result { demoSearch with explicit_ignore := [["b".toList]], name := "b".toList }
        { parent := [".".toList], name := "b".toList, ftypeProbe := some true }
      = some (some (SearchResult.Exact [".".toList, "b".toList]),
              some [".".toList, "b".toList]) := by
  refine ⟨rfl, rfl, ?_⟩
  decide

/-- C3 (amended): explicit-ignore matching is full-path equality for every
ignore entry, relative or absolute (base names are never compared): for
every configuration whose explicit_ignore list is sorted, an entry whose
full path is an element of the list is skipped — no match and no
recursion path, regardless of hidden status or subtree contents, so an
ignored directory is never entered. -/
theorem ignore_fullpath_skip (s : Search) (e : DirEntry)
    (hsort : s.explicit_ignore.Sorted (· ≤ ·))
    (hmem : e.path ∈ s.explicit_ignore) :
    is_result s e = none := by
  have hig : ignoredBy s e = true := by
    have hiff := binarySearch_isOk_iff s.explicit_ignore e.path hsort
    simp [ignoredBy, hiff, hmem]
  simp [is_result, hig]

/-- Witness for ignore_fullpath_skip: a hidden-traversal-enabled search
with the sorted ignore list containing the entry's full path skips the
directory entry entirely. -/
theorem ignore_fullpath_skip_case :
    is_result
      { demoSearch with explicit_ignore := [["a".toList, "b".toList]], hidden := true }
      { parent := ["a".toList], name := "b".toList, ftypeProbe := some true } = none :=
  ignore_fullpath_skip
    { demoSearch with explicit_ignore := [["a".toList, "b".toList]], hidden := true }
    { parent := ["a".toList], name := "b".toList, ftypeProbe := some true }
    (by decide) (by decide)

/-- C9: the explicit-ignore skip is a binary search over explicit_ignore,
membership-correct exactly under sortedness: for every configuration with
a sorted explicit_ignore list the ignore step fires if and only if the
entry's full path is an element of the list; the configuration builder
maps canonicalization over the user-supplied entries position by position
and never sorts them, so the produced list can be unsorted, and on an
unsorted list the binary search can miss a genuine element. -/
theorem explicit_ignore_binary_search :
    (∀ (s : Search) (e : DirEntry), s.explicit_ignore.Sorted (· ≤ ·) →
        (ignoredBy s e = true ↔ e.path ∈ s.explicit_ignore))
  ∧ (∀ (canon : FsPath → Option FsPath) (l : List FsPath) (i : Nat),
        (processIgnoreDirs canon l)[i]? = l[i]?.map fun p => (canon p).getD p)
  ∧ (∃ (canon : FsPath → Option FsPath) (l : List FsPath),
        ¬ (processIgnoreDirs canon l).Sorted (· ≤ ·))
  ∧ (∃ (l : List FsPath) (p : FsPath), p ∈ l ∧ (binarySearch l p).isOk = false) := by
  refine ⟨?_, ?_, ?_, ?_⟩
  · intro s e hsort
    have hiff := binarySearch_isOk_iff s.explicit_ignore e.path hsort
    simpa [ignoredBy] using hiff
  · intro canon l i
    simp [processIgnoreDirs, List.getElem?_map]
  · exact ⟨fun _ => none, [["b".toList], ["a".toList]], by decide⟩
  · exact ⟨[["c".toList], ["b".toList], ["a".toList]], ["a".toList], by decide, by decide⟩

theorem equals_cond_iff (s : Search) (e : DirEntry) :
    ((containsQuery s e && ((snameOf s e).length == s.name.length)) = true)
      ↔ snameOf s e = s.name :=
  contains_len_iff s.name (snameOf s e)

theorem isExact_iff (s : Search) (e : DirEntry) (h : passesFilters s e = true) :
    isExactOutcome (is_result s e) = true ↔ snameOf s e = s.name := by
  rw [← equals_cond_iff s e]
  simp only [isExactOutcome, matchOf_characterization, h, if_true]
  by_cases he : (containsQuery s e && ((snameOf s e).length == s.name.length)) = true
  · simp [he]
  · have he' : (containsQuery s e && ((snameOf s e).length == s.name.length)) = false := by
      simpa using he
    simp only [he', Bool.false_eq_true, if_false]
    by_cases hc : (!s.exact && containsQuery s e) = true <;> simp [hc]

theorem isContains_iff (s : Search) (e : DirEntry) (h : passesFilters s e = true)
    (hx : s.exact = false) :
    isContainsOutcome (is_result s e) = true ↔
      (s.name <:+: snameOf s e ∧ snameOf s e ≠ s.name) := by
  simp only [isContainsOutcome, matchOf_characterization, h, if_true]
  by_cases he : (containsQuery s e && ((snameOf s e).length == s.name.length)) = true
  · have hcq : containsQuery s e = true := by
      have h2 := he
      simp only [Bool.and_eq_true] at h2
      exact h2.1
    have heq : snameOf s e = s.name := (equals_cond_iff s e).mp he
    simp [he, hcq, heq]
  · have he' : (containsQuery s e && ((snameOf s e).length == s.name.length)) = false := by
      simpa using he
    simp only [he', Bool.false_eq_true, if_false, hx, Bool.not_false, Bool.true_and]
    by_cases hc : containsQuery s e = true
    · have hinf : s.name <:+: snameOf s e := by simpa [containsQuery] using hc
      have hne : snameOf s e ≠ s.name := by
        intro habs
        rw [(equals_cond_iff s e).mpr habs] at he'
        cases he'
      simp [hc, hinf, hne]
    · have hc' : containsQuery s e = false := by simpa using hc
      have hninf : ¬ s.name <:+: snameOf s e := by simpa [containsQuery] using hc'
      simp [hc', hninf]

theorem empty_query_matches (s : Search) (e : DirEntry) (h : passesFilters s e = true)
    (hx : s.exact = false) (hq : s.name = []) :
    (matchOf (is_result s e)).isSome = true := by
  rw [matchOf_characterization]
  have hc : containsQuery s e = true := by
    simp [containsQuery, hq, List.nil_infix]
  simp only [h, if_true]
  by_cases he : ((snameOf s e).length == s.name.length) = true
  · simp [hc, he]
  · have he' : ((snameOf s e).length == s.name.length) = false := by simpa using he
    simp [hc, he', hx]

theorem filterMap_ite_eq_filter_map {α β : Type} (p : α → Bool) (f : α → β)
    (l : List α) :
    (l.filterMap fun a => if p a then some (f a) else none) = (l.filter p).map f := by
  induction l with
  | nil => rfl
  | cons a l ih =>
    by_cases h : p a <;> simp [List.filterMap_cons, List.filter_cons, h, ih]

theorem filterMap_congr_fun {α β : Type} (f g : α → Option β) (h : ∀ a, f a = g a)
    (l : List α) : l.filterMap f = l.filterMap g := by
  induction l with
  | nil => rfl
  | cons a l ih => simp [List.filterMap_cons, h a, ih]

theorem matchOf_exact_eq (s : Search) (e : DirEntry) :
    ((matchOf (is_result s e)).bind fun r =>
        match r with | SearchResult.Exact p => some p | _ => none)
      = if passesFilters s e && (snameOf s e == s.name) then some e.path else none := by
  rw [matchOf_characterization]
  by_cases hp : passesFilters s e = true
  · simp only [hp, if_true, Bool.true_and]
    by_cases he : (containsQuery s e && ((snameOf s e).length == s.name.length)) = true
    · have hcq : containsQuery s e = true := by
        have h2 := he
        simp only [Bool.and_eq_true] at h2
        exact h2.1
      have heq : snameOf s e = s.name := (equals_cond_iff s e).mp he
      simp [he, hcq, heq]
    · have he' : (containsQuery s e && ((snameOf s e).length == s.name.length)) = false := by
        simpa using he
      have hne : snameOf s e ≠ s.name := by
        intro habs
        rw [(equals_cond_iff s e).mpr habs] at he'
        cases he'
      have hb : (snameOf s e == s.name) = false := beq_eq_false_iff_ne.mpr hne
      simp only [he', Bool.false_eq_true, if_false, hb]
      by_cases hc : (!s.exact && containsQuery s e) = true <;> simp [hc]
  · have hp' : passesFilters s e = false := by simpa using hp
    simp [hp']

theorem matchOf_contains_eq (s : Search) (e : DirEntry) (hx : s.exact = false) :
    ((matchOf (is_result s e)).bind fun r =>
        match r with | SearchResult.Contains p => some p | _ => none)
      = if passesFilters s e &&
            (decide (s.name <:+: snameOf s e) && !(snameOf s e == s.name)) then
          some e.path
        else none := by
  rw [matchOf_characterization]
  by_cases hp : passesFilters s e = true
  · simp only [hp, if_true, Bool.true_and]
    by_cases he : (containsQuery s e && ((snameOf s e).length == s.name.length)) = true
    · have hcq : containsQuery s e = true := by
        have h2 := he
        simp only [Bool.and_eq_true] at h2
        exact h2.1
      have heq : snameOf s e = s.name := (equals_cond_iff s e).mp he
      simp [he, hcq, heq]
    · have he' : (containsQuery s e && ((snameOf s e).length == s.name.length)) = false := by
        simpa using he
      have hne : snameOf s e ≠ s.name := by
        intro habs
        rw [(equals_cond_iff s e).mpr habs] at he'
        cases he'
      have hb : (snameOf s e == s.name) = false := beq_eq_false_iff_ne.mpr hne
      simp only [he', Bool.false_eq_true, if_false, hb]
      by_cases hc : containsQuery s e = true
      · have hinf : s.name <:+: snameOf s e := by simpa [containsQuery] using hc
        simp [hx, hc, hinf]
      · have hc' : containsQuery s e = false := by simpa using hc
        have hninf : ¬ s.name <:+: snameOf s e := by simpa [containsQuery] using hc'
        simp [hx, hc', hninf]
  · have hp' : passesFilters s e = false := by simpa using hp
    simp [hp']

theorem exactPartition_collect (s : Search) (es : List DirEntry) :
    exactPartition (collectMatches s es)
      = (es.filter fun e => passesFilters s e && (snameOf s e == s.name)).map
          DirEntry.path := by
  unfold exactPartition collectMatches
  rw [List.filterMap_filterMap]
  rw [filterMap_congr_fun _
    (fun e => if passesFilters s e && (snameOf s e == s.name) then some e.path else none)
    (fun e => matchOf_exact_eq s e)]
  exact filterMap_ite_eq_filter_map _ _ es

theorem containsPartition_collect (s : Search) (es : List DirEntry)
    (hx : s.exact = false) :
    containsPartition (collectMatches s es)
      = (es.filter fun e => passesFilters s e &&
          (decide (s.name <:+: snameOf s e) && !(snameOf s e == s.name))).map
          DirEntry.path := by
  unfold containsPartition collectMatches
  rw [List.filterMap_filterMap]
  rw [filterMap_congr_fun _
    (fun e => if passesFilters s e &&
        (decide (s.name <:+: snameOf s e) && !(snameOf s e == s.name)) then
      some e.path else none)
    (fun e => matchOf_contains_eq s e hx)]
  exact filterMap_ite_eq_filter_map _ _ es

/-- Witness for explicit_ignore_binary_search: on a concrete sorted
one-element ignore list the ignore step fires exactly on the listed
path. -/
theorem explicit_ignore_binary_search_case :
    ignoredBy { demoSearch with explicit_ignore := [["a".toList, "b".toList]] }
        { parent := ["a".toList], name := "b".toList, ftypeProbe := some true } = true
      ↔ ({ parent := ["a".toList], name := "b".toList,
            ftypeProbe := some true } : DirEntry).path
          ∈ ({ demoSearch with
                explicit_ignore := [["a".toList, "b".toList]] } : Search).explicit_ignore :=
  explicit_ignore_binary_search.1
    { demoSearch with explicit_ignore := [["a".toList, "b".toList]] }
    { parent := ["a".toList], name := "b".toList, ftypeProbe := some true }
    (by decide)

/-- C1: for every entry that passes the ignore, hidden, type and
prefix/suffix filters, the predicate classifies it as Exact exactly when
the folded base name equals the query; when exact-only mode is off, as
Contains exactly when the folded name contains the query as a substring
without equalling it, and an empty query matches every such entry.
Consequently, over any walk, the Exact partition is exactly the filtered
entries whose folded name equals the query, and the Contains partition
exactly those whose folded name strictly contains it. -/
theorem exact_contains_classification :
    (∀ (s : Search) (e : DirEntry), passesFilters s e = true →
        ((isExactOutcome (is_result s e) = true ↔ snameOf s e = s.name)
          ∧ (s.exact = false →
              (isContainsOutcome (is_result s e) = true ↔
                (s.name <:+: snameOf s e ∧ snameOf s e ≠ s.name)))
          ∧ (s.exact = false → s.name = [] →
              (matchOf (is_result s e)).isSome = true)))
  ∧ (∀ (s : Search) (es : List DirEntry),
        exactPartition (collectMatches s es)
          = (es.filter fun e => passesFilters s e && (snameOf s e == s.name)).map
              DirEntry.path)
  ∧ (∀ (s : Search) (es : List DirEntry), s.exact = false →
        containsPartition (collectMatches s es)
          = (es.filter fun e => passesFilters s e &&
              (decide (s.name <:+: snameOf s e) && !(snameOf s e == s.name))).map
              DirEntry.path) :=
  ⟨fun s e h =>
    ⟨isExact_iff s e h,
     fun hx => isContains_iff s e h hx,
     fun hx hq => empty_query_matches s e h hx hq⟩,
   fun s es => exactPartition_collect s es,
   fun s es hx => containsPartition_collect s es hx⟩

/-- Witness for exact_contains_classification: the entry "Target" under
the baseline case-insensitive search for "target" passes all filters and
is classified Exact, not Contains. -/
theorem exact_contains_classification_case :
    (isExactOutcome (is_result demoSearch
        { parent := ["a".toList], name := "Target".toList, ftypeProbe := some false })
          = true
      ↔ snameOf demoSearch
          { parent := ["a".toList], name := "Target".toList, ftypeProbe := some false }
          = demoSearch.name)
  ∧ (demoSearch.exact = false →
      (isContainsOutcome (is_result demoSearch
          { parent := ["a".toList], name := "Target".toList, ftypeProbe := some false })
            = true
        ↔ (demoSearch.name <:+: snameOf demoSearch
              { parent := ["a".toList], name := "Target".toList, ftypeProbe := some false }
            ∧ snameOf demoSearch
                { parent := ["a".toList], name := "Target".toList, ftypeProbe := some false }
              ≠ demoSearch.name)))
  ∧ (demoSearch.exact = false → demoSearch.name = [] →
      (matchOf (is_result demoSearch
          { parent := ["a".toList], name := "Target".toList,
            ftypeProbe := some false })).isSome = true) :=
  exact_contains_classification.1 demoSearch
    { parent := ["a".toList], name := "Target".toList, ftypeProbe := some false }
    (by decide)

/-- C2: evaluation of the worker-pool termination protocol at a failing
input.  On the three-directory chain 0 → 1 → 2 with two workers, the
interleaving raceSched makes worker 0 observe `working == 0` and an empty
channel — and broadcast the stop signals — at a point where worker 1 has
dequeued directory 1 but not yet executed `start_work`, i.e. while a
worker still holds a work item (first conjunct).  Completing the
schedule, both workers exit while the channel still carries the work item
for directory 2, which is never expanded (second and third conjuncts).
This contradicts the claim that the pool never reports completion while
any worker holds or is expanding a work item. -/
theorem pool_stops_while_work_remains :
    (runPool chainTree 2 0 (raceSched.take 7)).workers
        = [WPhase.broadcast, WPhase.received 1]
  ∧ (runPool chainTree 2 0 raceSched).channel = [Msg.work 2]
  ∧ (runPool chainTree 2 0 raceSched).workers = [WPhase.broadcast, WPhase.stopped] := by
  refine ⟨?_, ?_, ?_⟩ <;> rfl

end Hunt
